import Mathlib

/-!
Verification of the pose-transform mathematics layer of the teleop-android
repository: the functions of `src/python/teleop_android/lerobot_utils.py`
(quaternion SLERP, rigid-transform closeness and interpolation, wrist delta
extraction) and the quaternion-reorder constants shared with
`src/python/examples/visualize-rerun.py`, shallowly embedded over the real
numbers.  Machine floats are modelled by exact reals; `math.asin` domain
faults are modelled by `Option`.
-/

namespace TeleopAndroid

open scoped Classical

noncomputable section

/-- Quaternions as numpy 4-vectors of reals. -/
abbrev Quat := Fin 4 → ℝ

/-- 3x3 rotation matrices. -/
abbrev Mat3 := Matrix (Fin 3) (Fin 3) ℝ

/-- 4x4 homogeneous transforms. -/
abbrev Mat4 := Matrix (Fin 4) (Fin 4) ℝ

/-- numpy dot product of two 4-vectors (`np.dot`). -/
def qdot (p q : Quat) : ℝ := ∑ i, p i * q i

/-- numpy Euclidean norm of a 4-vector (`np.linalg.norm`). -/
def qnorm (q : Quat) : ℝ := Real.sqrt (qdot q q)

/-- Componentwise division by the Euclidean norm (`q / np.linalg.norm(q)`). -/
def qnormalize (q : Quat) : Quat := fun i => q i / qnorm q

/-- The straight-line tail of `slerp` after input normalization and
shortest-path sign correction: `a`, `b` are the normalized (sign-corrected)
inputs and `d` the (sign-corrected) dot product.  Mirrors lines 59-71 of
`lerobot_utils.py`: linear-interpolation fallback when the dot product
exceeds the 0.9995 threshold, great-circle formula otherwise. -/
def slerpPost (a b : Quat) (d t : ℝ) : Quat :=
  if 0.9995 < d then qnormalize (a + t • (b - a))
  else
    Real.cos (Real.arccos d * t) • a +
      Real.sin (Real.arccos d * t) • qnormalize (b - d • a)

/-- `slerp` from `lerobot_utils.py`: normalize both inputs, negate the second
(and the dot product) when the dot product is negative, then interpolate. -/
def slerp (q1 q2 : Quat) (t : ℝ) : Quat :=
  if qdot (qnormalize q1) (qnormalize q2) < 0 then
    slerpPost (qnormalize q1) (-qnormalize q2)
      (-qdot (qnormalize q1) (qnormalize q2)) t
  else
    slerpPost (qnormalize q1) (qnormalize q2)
      (qdot (qnormalize q1) (qnormalize q2)) t

/-- Python `math.atan2`. -/
def atan2 (y x : ℝ) : ℝ :=
  if 0 < x then Real.arctan (y / x)
  else if x < 0 then
    if 0 ≤ y then Real.arctan (y / x) + Real.pi else Real.arctan (y / x) - Real.pi
  else if 0 < y then Real.pi / 2
  else if y < 0 then -(Real.pi / 2)
  else 0

/-- `np.allclose(v, np.zeros(3), atol := tol)`: on a zero target the
relative-tolerance term of numpy's closeness formula vanishes, leaving the
componentwise absolute comparison. -/
def npAllcloseZero (v : Fin 3 → ℝ) (atol : ℝ) : Prop := ∀ i, |v i| ≤ atol

/-- The translation column `T[:3, 3]` of a homogeneous transform. -/
def transOf (T : Mat4) : Fin 3 → ℝ := ![T 0 3, T 1 3, T 2 3]

/-- The rotation block `T[:3, :3]` of a homogeneous transform. -/
def rotOf (T : Mat4) : Mat3 :=
  !![T 0 0, T 0 1, T 0 2; T 1 0, T 1 1, T 1 2; T 2 0, T 2 1, T 2 2]

/-- Domain of Python `math.asin` (outside it the call raises `ValueError`). -/
def asinDom (x : ℝ) : Prop := -1 ≤ x ∧ x ≤ 1

/-- `are_close` from `lerobot_utils.py`: form `d = inv(a) @ b`, return `false`
when the translation of `d` is not within `lin_tol` of zero, otherwise extract
roll/pitch/yaw of `d` and compare them against `ang_tol`.  The pitch uses
`math.asin(-d[2,0])` without clamping; `none` models the `ValueError` raised
when that argument leaves `[-1, 1]`. -/
def are_close (a b : Mat4) (lin_tol ang_tol : ℝ) : Option Bool :=
  let d := a⁻¹ * b
  if npAllcloseZero (transOf d) lin_tol then
    if asinDom (-d 2 0) then
      some (decide (npAllcloseZero
        ![atan2 (d 2 1) (d 2 2), Real.arcsin (-d 2 0), atan2 (d 1 0) (d 0 0)]
        ang_tol))
    else none
  else some false

/-- `T_interp = np.eye(4); T_interp[:3,:3] = R; T_interp[:3,3] = t`. -/
def assemble (R : Mat3) (t : Fin 3 → ℝ) : Mat4 :=
  !![R 0 0, R 0 1, R 0 2, t 0;
     R 1 0, R 1 1, R 1 2, t 1;
     R 2 0, R 2 1, R 2 2, t 2;
     0, 0, 0, 1]

/-- `interpolate_transforms` from `lerobot_utils.py`, after its shape and
range assertions: linear interpolation of the translations plus SLERP of the
rotation blocks.  The external `transforms3d` conversions `mat2quat` and
`quat2mat` are passed as the parameters `m2q` and `q2m`; theorems about this
definition hypothesize exactly their documented contract (unit output
quaternion, matrix round trip). -/
def interpolate_transforms (m2q : Mat3 → Quat) (q2m : Quat → Mat3)
    (T1 T2 : Mat4) (alpha : ℝ) : Mat4 :=
  assemble (q2m (slerp (m2q (rotOf T1)) (m2q (rotOf T2)) alpha))
    (fun i => (1 - alpha) * transOf T1 i + alpha * transOf T2 i)

/-- `interpolate_transforms` including its two leading `assert` statements
(`T1.shape == (4, 4) and T2.shape == (4, 4)`, then `0.0 <= alpha <= 1.0`),
over inputs of arbitrary shape: `none` models an `AssertionError`. -/
def interpolate_transforms_checked (m2q : Mat3 → Quat) (q2m : Quat → Mat3)
    (r1 c1 r2 c2 : ℕ) (T1 : Matrix (Fin r1) (Fin c1) ℝ)
    (T2 : Matrix (Fin r2) (Fin c2) ℝ) (alpha : ℝ) : Option Mat4 :=
  if h : ((r1 = 4 ∧ c1 = 4) ∧ (r2 = 4 ∧ c2 = 4)) ∧ 0 ≤ alpha ∧ alpha ≤ 1 then
    some (interpolate_transforms m2q q2m
      (Matrix.of fun i j => T1 (Fin.cast h.1.1.1.symm i) (Fin.cast h.1.1.2.symm j))
      (Matrix.of fun i j => T2 (Fin.cast h.1.2.1.symm i) (Fin.cast h.1.2.2.symm j))
      alpha)
  else none

/-- Modelled from the spec: the external `transforms3d.euler.mat2euler` with
static `sxyz` axes, used by the wrist-delta extractor but not part of this
repository.  Per the spec it decomposes a rotation into a fixed-order
(roll about x, pitch about y, yaw about z) triple; the formulas are the
standard `sxyz` atan2 extraction with the library's near-gimbal-lock guard at
`cy <= 4 * eps` (eps the double-precision machine epsilon, `2 ^ (-52)`). -/
def mat2euler_sxyz (M : Mat3) : ℝ × ℝ × ℝ :=
  if 4 / 2 ^ 52 < Real.sqrt (M 0 0 * M 0 0 + M 1 0 * M 1 0) then
    (atan2 (M 2 1) (M 2 2),
     atan2 (-M 2 0) (Real.sqrt (M 0 0 * M 0 0 + M 1 0 * M 1 0)),
     atan2 (M 1 0) (M 0 0))
  else
    (atan2 (-M 1 2) (M 1 1),
     atan2 (-M 2 0) (Real.sqrt (M 0 0 * M 0 0 + M 1 0 * M 1 0)),
     0)

/-- `compute_wrist_deltas_from_phone_and_arm` from `lerobot_utils.py`:
pitch of the wrist delta (phone relative to arm, relative to calibration) and
roll of the phone's own world-frame delta. -/
def compute_wrist_deltas_from_phone_and_arm
    (phone arm phone0 arm0 : Mat3) : ℝ × ℝ :=
  ((mat2euler_sxyz ((arm0.transpose * phone0).transpose * (arm.transpose * phone))).2.1,
   (mat2euler_sxyz (phone0.transpose * phone)).1)

/-- Scalar-last to scalar-first quaternion reorder constant
(`lerobot_utils.py` line 10, `visualize-rerun.py` line 26). -/
def TF_XYZW_TO_WXYZ : Mat4 := !![0,0,0,1; 1,0,0,0; 0,1,0,0; 0,0,1,0]

/-- Scalar-first to scalar-last quaternion reorder constant
(`lerobot_utils.py` line 11, `visualize-rerun.py` line 27). -/
def TF_WXYZ_TO_XYZW : Mat4 := !![0,1,0,0; 0,0,1,0; 0,0,0,1; 1,0,0,0]

/-- Rigid transform rotating by the rational-cosine angle
`acos(3/5)` about z, with zero translation. -/
def cT1 : Mat4 := !![3/5, -4/5, 0, 0; 4/5, 3/5, 0, 0; 0, 0, 1, 0; 0, 0, 0, 1]

/-- The inverse of `cT1`. -/
def cT1i : Mat4 := !![3/5, 4/5, 0, 0; -4/5, 3/5, 0, 0; 0, 0, 1, 0; 0, 0, 0, 1]

/-- Same rotation as `cT1`, translated by `(6/5, 0, 0)`. -/
def cT2 : Mat4 := !![3/5, -4/5, 0, 6/5; 4/5, 3/5, 0, 0; 0, 0, 1, 0; 0, 0, 0, 1]

/-- Identity rotation translated by `(2, 0, 0)`. -/
def cFar : Mat4 := !![1, 0, 0, 2; 0, 1, 0, 0; 0, 0, 1, 0; 0, 0, 0, 1]

/-- An invertible transform whose (non-orthonormal) rotation block makes
`inv(cAsin)[2, 0] = 2`, driving the `asin` argument of `are_close` out of
its domain. -/
def cAsin : Mat4 := !![1, 0, 0, 0; 0, 1, 0, 0; -2, 0, 1, 0; 0, 0, 0, 1]

/-- The inverse of `cAsin`. -/
def cAsinI : Mat4 := !![1, 0, 0, 0; 0, 1, 0, 0; 2, 0, 1, 0; 0, 0, 0, 1]

/-- A constant stand-in for `transforms3d.quaternions.mat2quat` used to
instantiate witnesses at the identity rotation. -/
def cm2q : Mat3 → Quat := fun _ => ![1, 0, 0, 0]

/-- A constant stand-in for `transforms3d.quaternions.quat2mat` used to
instantiate witnesses at the identity rotation. -/
def cq2m : Quat → Mat3 := fun _ => 1

/-- Rotation about the z axis, used to witness the wrist-delta isolation
property at a 30-degree arm yaw. -/
def Rz (t : ℝ) : Mat3 :=
  !![Real.cos t, -Real.sin t, 0; Real.sin t, Real.cos t, 0; 0, 0, 1]

theorem qdot_expand (p q : Quat) :
    qdot p q = p 0 * q 0 + p 1 * q 1 + p 2 * q 2 + p 3 * q 3 := by
  simp [qdot, Fin.sum_univ_four]

theorem qdot_self_nonneg (q : Quat) : 0 ≤ qdot q q := by
  rw [qdot_expand]
  nlinarith [mul_self_nonneg (q 0), mul_self_nonneg (q 1),
    mul_self_nonneg (q 2), mul_self_nonneg (q 3)]

theorem qdot_self_eq_zero {q : Quat} : qdot q q = 0 ↔ q = 0 := by
  constructor
  · intro h
    rw [qdot_expand] at h
    have h0 : q 0 * q 0 = 0 := by
      nlinarith [mul_self_nonneg (q 1), mul_self_nonneg (q 2), mul_self_nonneg (q 3)]
    have h1 : q 1 * q 1 = 0 := by
      nlinarith [mul_self_nonneg (q 0), mul_self_nonneg (q 2), mul_self_nonneg (q 3)]
    have h2 : q 2 * q 2 = 0 := by
      nlinarith [mul_self_nonneg (q 0), mul_self_nonneg (q 1), mul_self_nonneg (q 3)]
    have h3 : q 3 * q 3 = 0 := by
      nlinarith [mul_self_nonneg (q 0), mul_self_nonneg (q 1), mul_self_nonneg (q 2)]
    funext i
    fin_cases i
    · simpa using mul_self_eq_zero.mp h0
    · simpa using mul_self_eq_zero.mp h1
    · simpa using mul_self_eq_zero.mp h2
    · simpa using mul_self_eq_zero.mp h3
  · intro h
    rw [h, qdot_expand]
    simp

theorem qnorm_pos {q : Quat} (h : q ≠ 0) : 0 < qnorm q := by
  have h1 : 0 < qdot q q :=
    lt_of_le_of_ne (qdot_self_nonneg q) (fun h2 => h (qdot_self_eq_zero.mp h2.symm))
  exact Real.sqrt_pos.mpr h1

theorem qnorm_mul_self (q : Quat) : qnorm q * qnorm q = qdot q q :=
  Real.mul_self_sqrt (qdot_self_nonneg q)

theorem qdot_self_of_unit {q : Quat} (h : qnorm q = 1) : qdot q q = 1 := by
  have h2 := qnorm_mul_self q
  rw [h, one_mul] at h2
  exact h2.symm

theorem qdot_qnormalize_self {q : Quat} (h : q ≠ 0) :
    qdot (qnormalize q) (qnormalize q) = 1 := by
  have hn : qnorm q ≠ 0 := (qnorm_pos h).ne'
  have hq : qdot q q ≠ 0 := fun h0 => h (qdot_self_eq_zero.mp h0)
  have he : qdot (qnormalize q) (qnormalize q) = qdot q q / (qnorm q * qnorm q) := by
    rw [qdot_expand (qnormalize q), qdot_expand q]
    simp only [qnormalize]
    field_simp
  rw [he, qnorm_mul_self, div_self hq]

theorem qnorm_qnormalize {q : Quat} (h : q ≠ 0) : qnorm (qnormalize q) = 1 := by
  rw [qnorm, qdot_qnormalize_self h, Real.sqrt_one]

theorem qnormalize_of_unit {q : Quat} (h : qnorm q = 1) : qnormalize q = q := by
  funext i
  simp [qnormalize, h]

theorem qdot_lerp_self (a b : Quat) (t : ℝ) :
    qdot (a + t • (b - a)) (a + t • (b - a)) =
      (1 - t) ^ 2 * qdot a a + 2 * (t * (1 - t)) * qdot a b + t ^ 2 * qdot b b := by
  simp only [qdot_expand, Pi.add_apply, Pi.smul_apply, Pi.sub_apply, smul_eq_mul]
  ring

theorem qdot_reject_self (a b : Quat) (d : ℝ) :
    qdot (b - d • a) (b - d • a) =
      qdot b b - 2 * d * qdot a b + d ^ 2 * qdot a a := by
  simp only [qdot_expand, Pi.sub_apply, Pi.smul_apply, smul_eq_mul]
  ring

theorem qdot_reject_left (a b : Quat) (d : ℝ) :
    qdot a (b - d • a) = qdot a b - d * qdot a a := by
  simp only [qdot_expand, Pi.sub_apply, Pi.smul_apply, smul_eq_mul]
  ring

theorem qdot_combo_self (a b : Quat) (c s : ℝ) :
    qdot (c • a + s • b) (c • a + s • b) =
      c ^ 2 * qdot a a + 2 * (c * s) * qdot a b + s ^ 2 * qdot b b := by
  simp only [qdot_expand, Pi.add_apply, Pi.smul_apply, smul_eq_mul]
  ring

theorem qdot_neg_right (a b : Quat) : qdot a (-b) = -qdot a b := by
  simp only [qdot_expand, Pi.neg_apply]
  ring

theorem qnorm_neg (q : Quat) : qnorm (-q) = qnorm q := by
  have h : qdot (-q) (-q) = qdot q q := by
    simp only [qdot_expand, Pi.neg_apply]
    ring
  rw [qnorm, qnorm, h]

theorem qdot_normalize_right (p u : Quat) :
    qdot p (qnormalize u) = qdot p u / qnorm u := by
  simp only [qdot_expand, qnormalize]
  ring

theorem slerpPost_qnorm (a b : Quat) (d t : ℝ)
    (ha : qnorm a = 1) (hb : qnorm b = 1) (hab : qdot a b = d)
    (hd0 : 0 ≤ d) (ht0 : 0 ≤ t) (ht1 : t ≤ 1) :
    qnorm (slerpPost a b d t) = 1 := by
  have haa : qdot a a = 1 := qdot_self_of_unit ha
  have hbb : qdot b b = 1 := qdot_self_of_unit hb
  rw [slerpPost]
  by_cases h : (0.9995 : ℝ) < d
  · rw [if_pos h]
    have hrr : qdot (a + t • (b - a)) (a + t • (b - a)) =
        (1 - t) ^ 2 + 2 * (t * (1 - t)) * d + t ^ 2 := by
      rw [qdot_lerp_self, haa, hbb, hab]
      ring
    have hpos : 0 < qdot (a + t • (b - a)) (a + t • (b - a)) := by
      rw [hrr]
      nlinarith [mul_nonneg (mul_nonneg ht0 (sub_nonneg.mpr ht1)) hd0,
        sq_nonneg (1 - 2 * t)]
    have hne : a + t • (b - a) ≠ 0 := by
      intro h0
      rw [h0] at hpos
      simp [qdot_expand] at hpos
    exact qnorm_qnormalize hne
  · rw [if_neg h]
    have hd1 : d ≤ 0.9995 := le_of_not_lt h
    have huu : qdot (b - d • a) (b - d • a) = 1 - d ^ 2 := by
      rw [qdot_reject_self, haa, hbb, hab]
      ring
    have hupos : 0 < qdot (b - d • a) (b - d • a) := by
      rw [huu]
      nlinarith
    have hune : b - d • a ≠ 0 := by
      intro h0
      rw [h0] at hupos
      simp [qdot_expand] at hupos
    have hq3 : qdot (qnormalize (b - d • a)) (qnormalize (b - d • a)) = 1 :=
      qdot_qnormalize_self hune
    have horth : qdot a (qnormalize (b - d • a)) = 0 := by
      rw [qdot_normalize_right, qdot_reject_left, hab, haa]
      simp
    rw [qnorm, qdot_combo_self, haa, hq3, horth]
    have hone : Real.cos (Real.arccos d * t) ^ 2 * 1 +
        2 * (Real.cos (Real.arccos d * t) * Real.sin (Real.arccos d * t)) * 0 +
        Real.sin (Real.arccos d * t) ^ 2 * 1 = 1 := by
      have hcs := Real.sin_sq_add_cos_sq (Real.arccos d * t)
      ring_nf
      linarith [hcs]
    rw [hone, Real.sqrt_one]

/-- Claim C2: for nonzero input quaternions and interpolation factor in
[0, 1], the output of slerp has Euclidean norm exactly 1 (exact arithmetic),
in both the linear-interpolation fallback branch and the great-circle
branch. -/
theorem slerp_unit_norm (q1 q2 : Quat) (t : ℝ)
    (h1 : q1 ≠ 0) (h2 : q2 ≠ 0) (ht0 : 0 ≤ t) (ht1 : t ≤ 1) :
    qnorm (slerp q1 q2 t) = 1 := by
  have ha : qnorm (qnormalize q1) = 1 := qnorm_qnormalize h1
  have hb : qnorm (qnormalize q2) = 1 := qnorm_qnormalize h2
  rw [slerp]
  by_cases h : qdot (qnormalize q1) (qnormalize q2) < 0
  · rw [if_pos h]
    exact slerpPost_qnorm _ _ _ _ ha (by rw [qnorm_neg]; exact hb)
      (qdot_neg_right _ _) (by linarith) ht0 ht1
  · rw [if_neg h]
    exact slerpPost_qnorm _ _ _ _ ha hb rfl (le_of_not_lt h) ht0 ht1

theorem qnorm_e0 : qnorm (![1, 0, 0, 0] : Quat) = 1 := by
  rw [qnorm, qdot_expand]
  norm_num

theorem qnorm_e1 : qnorm (![0, 1, 0, 0] : Quat) = 1 := by
  rw [qnorm, qdot_expand]
  norm_num

theorem e0_ne_zero : (![1, 0, 0, 0] : Quat) ≠ 0 := by
  intro h
  have h0 := congrFun h 0
  simp at h0

theorem e1_ne_zero : (![0, 1, 0, 0] : Quat) ≠ 0 := by
  intro h
  have h0 := congrFun h 1
  simp at h0

/-- Witness for C2 at concrete inputs. -/
theorem slerp_unit_norm_witness :
    (![1, 0, 0, 0] : Quat) ≠ 0 ∧ (![0, 1, 0, 0] : Quat) ≠ 0 ∧
      (0 : ℝ) ≤ 1 / 2 ∧ (1 / 2 : ℝ) ≤ 1 ∧
      qnorm (slerp ![1, 0, 0, 0] ![0, 1, 0, 0] (1 / 2)) = 1 :=
  ⟨e0_ne_zero, e1_ne_zero, by norm_num, by norm_num,
    slerp_unit_norm _ _ _ e0_ne_zero e1_ne_zero (by norm_num) (by norm_num)⟩

theorem slerpPost_zero (a b : Quat) (d : ℝ) (ha : qnorm a = 1) :
    slerpPost a b d 0 = a := by
  rw [slerpPost]
  by_cases h : (0.9995 : ℝ) < d
  · rw [if_pos h]
    have hz : a + (0 : ℝ) • (b - a) = a := by
      funext i
      simp
    rw [hz, qnormalize_of_unit ha]
  · rw [if_neg h]
    funext i
    simp [mul_zero, Real.cos_zero, Real.sin_zero]

theorem slerpPost_one (a b : Quat) (d : ℝ)
    (ha : qnorm a = 1) (hb : qnorm b = 1) (hab : qdot a b = d) (hd0 : 0 ≤ d) :
    slerpPost a b d 1 = b := by
  have haa : qdot a a = 1 := qdot_self_of_unit ha
  have hbb : qdot b b = 1 := qdot_self_of_unit hb
  rw [slerpPost]
  by_cases h : (0.9995 : ℝ) < d
  · rw [if_pos h]
    have hz : a + (1 : ℝ) • (b - a) = b := by
      funext i
      simp
    rw [hz, qnormalize_of_unit hb]
  · rw [if_neg h]
    have hd1 : d ≤ 0.9995 := le_of_not_lt h
    have huu : qdot (b - d • a) (b - d • a) = 1 - d ^ 2 := by
      rw [qdot_reject_self, haa, hbb, hab]
      ring
    have h1d : 0 < 1 - d ^ 2 := by nlinarith
    have hs : qnorm (b - d • a) = Real.sqrt (1 - d ^ 2) := by
      rw [qnorm, huu]
    have hsne : Real.sqrt (1 - d ^ 2) ≠ 0 := (Real.sqrt_pos.mpr h1d).ne'
    have hcos : Real.cos (Real.arccos d * 1) = d := by
      rw [mul_one]
      exact Real.cos_arccos (by linarith) (by linarith)
    have hsin : Real.sin (Real.arccos d * 1) = Real.sqrt (1 - d ^ 2) := by
      rw [mul_one, Real.sin_arccos]
    funext i
    simp only [Pi.add_apply, Pi.smul_apply, smul_eq_mul, qnormalize,
      Pi.sub_apply, hcos, hsin, hs]
    field_simp

theorem slerp_zero (q1 q2 : Quat) (h1 : qnorm q1 = 1) (h2 : qnorm q2 = 1) :
    slerp q1 q2 0 = q1 := by
  rw [slerp, qnormalize_of_unit h1, qnormalize_of_unit h2]
  by_cases h : qdot q1 q2 < 0
  · rw [if_pos h]
    exact slerpPost_zero _ _ _ h1
  · rw [if_neg h]
    exact slerpPost_zero _ _ _ h1

theorem slerp_one (q1 q2 : Quat) (h1 : qnorm q1 = 1) (h2 : qnorm q2 = 1) :
    slerp q1 q2 1 = if qdot q1 q2 < 0 then -q2 else q2 := by
  rw [slerp, qnormalize_of_unit h1, qnormalize_of_unit h2]
  by_cases h : qdot q1 q2 < 0
  · rw [if_pos h, if_pos h]
    exact slerpPost_one _ _ _ h1 (by rw [qnorm_neg]; exact h2)
      (qdot_neg_right _ _) (by linarith)
  · rw [if_neg h, if_neg h]
    exact slerpPost_one _ _ _ h1 h2 rfl (le_of_not_lt h)

/-- Claim C3: for unit quaternions, slerp at t = 0 returns q1 exactly, and at
t = 1 returns q2 negated exactly when the dot product of q1 and q2 is
negative. -/
theorem slerp_endpoints (q1 q2 : Quat) (h1 : qnorm q1 = 1) (h2 : qnorm q2 = 1) :
    slerp q1 q2 0 = q1 ∧
      slerp q1 q2 1 = (if qdot q1 q2 < 0 then -q2 else q2) :=
  ⟨slerp_zero q1 q2 h1 h2, slerp_one q1 q2 h1 h2⟩

/-- Witness for C3 at concrete unit quaternions. -/
theorem slerp_endpoints_witness :
    qnorm (![1, 0, 0, 0] : Quat) = 1 ∧ qnorm (![0, 1, 0, 0] : Quat) = 1 ∧
      (slerp ![1, 0, 0, 0] ![0, 1, 0, 0] 0 = ![1, 0, 0, 0] ∧
        slerp ![1, 0, 0, 0] ![0, 1, 0, 0] 1 =
          (if qdot (![1, 0, 0, 0] : Quat) ![0, 1, 0, 0] < 0
            then -![0, 1, 0, 0] else ![0, 1, 0, 0])) :=
  ⟨qnorm_e0, qnorm_e1, slerp_endpoints _ _ qnorm_e0 qnorm_e1⟩

theorem qdot_e0_e1 : qdot (![1, 0, 0, 0] : Quat) ![0, 1, 0, 0] = 0 := by
  rw [qdot_expand]
  norm_num

/-- Counterexample to claim C8 as stated: at the boundary case where the dot
product of the unit quaternions is exactly zero, negating q2 is not corrected
internally (the code only negates on a strictly negative dot product), so the
two interpolation paths differ: at t = 1 one call returns q2 and the other
returns -q2. -/
theorem slerp_sign_counterexample :
    qnorm (![1, 0, 0, 0] : Quat) = 1 ∧ qnorm (![0, 1, 0, 0] : Quat) = 1 ∧
      qdot (![1, 0, 0, 0] : Quat) ![0, 1, 0, 0] = 0 ∧
      slerp ![1, 0, 0, 0] ![0, 1, 0, 0] 1 ≠
        slerp ![1, 0, 0, 0] (-![0, 1, 0, 0]) 1 := by
  refine ⟨qnorm_e0, qnorm_e1, qdot_e0_e1, ?_⟩
  have ha := slerp_one ![1, 0, 0, 0] ![0, 1, 0, 0] qnorm_e0 qnorm_e1
  have hb := slerp_one ![1, 0, 0, 0] (-![0, 1, 0, 0]) qnorm_e0
    (by rw [qnorm_neg]; exact qnorm_e1)
  rw [qdot_e0_e1, if_neg (lt_irrefl (0 : ℝ))] at ha
  rw [qdot_neg_right, qdot_e0_e1, neg_zero, if_neg (lt_irrefl (0 : ℝ))] at hb
  rw [ha, hb]
  intro h
  have h1 := congrFun h 1
  simp at h1
  norm_num at h1

/-- Claim C8, amended: slerp is invariant under negating its second argument
for unit quaternions whose dot product is nonzero (for a zero dot product the
two calls follow opposite great-circle paths and differ for t greater than
0). -/
theorem slerp_sign_robust (q1 q2 : Quat) (t : ℝ)
    (h1 : qnorm q1 = 1) (h2 : qnorm q2 = 1) (hd : qdot q1 q2 ≠ 0) :
    slerp q1 q2 t = slerp q1 (-q2) t := by
  have hn2 : qnormalize (-q2) = -q2 :=
    qnormalize_of_unit (by rw [qnorm_neg]; exact h2)
  rw [slerp, slerp, qnormalize_of_unit h1, qnormalize_of_unit h2, hn2,
    qdot_neg_right]
  rcases lt_or_gt_of_ne hd with hlt | hgt
  · rw [if_pos hlt, if_neg (by linarith : ¬ -qdot q1 q2 < 0)]
  · rw [if_neg (by linarith : ¬ qdot q1 q2 < 0),
      if_pos (by linarith : -qdot q1 q2 < 0), neg_neg, neg_neg]

/-- Witness for the amended C8 at concrete inputs with nonzero dot product. -/
theorem slerp_sign_robust_witness :
    qnorm (![1, 0, 0, 0] : Quat) = 1 ∧
      qdot (![1, 0, 0, 0] : Quat) ![1, 0, 0, 0] ≠ 0 ∧
      slerp ![1, 0, 0, 0] ![1, 0, 0, 0] (1 / 2) =
        slerp ![1, 0, 0, 0] (-![1, 0, 0, 0]) (1 / 2) :=
  ⟨qnorm_e0, by rw [qdot_expand]; norm_num,
    slerp_sign_robust _ _ _ qnorm_e0 qnorm_e0 (by rw [qdot_expand]; norm_num)⟩

theorem slerp_self (q : Quat) (h : qnorm q = 1) (t : ℝ) : slerp q q t = q := by
  have hqq : qdot q q = 1 := qdot_self_of_unit h
  rw [slerp, qnormalize_of_unit h]
  rw [if_neg (by rw [hqq]; norm_num), hqq, slerpPost,
    if_pos (by norm_num : (0.9995 : ℝ) < 1)]
  have hz : q + t • (q - q) = q := by
    funext i
    simp
  rw [hz, qnormalize_of_unit h]

theorem atan2_zero_one : atan2 0 1 = 0 := by
  rw [atan2, if_pos one_pos]
  norm_num

/-- Claim C1, amended: `are_close` returns `false` whenever the translation
column of the relative transform `d = inv(a) @ b` (the translation difference
rotated into the frame of `a`) exceeds `lin_tol` in absolute value along at
least one axis. -/
theorem are_close_false_of_trans_far (a b : Mat4) (lin_tol ang_tol : ℝ)
    (h : ∃ i : Fin 3, lin_tol < |transOf (a⁻¹ * b) i|) :
    are_close a b lin_tol ang_tol = some false := by
  obtain ⟨i, hi⟩ := h
  have hnc : ¬ npAllcloseZero (transOf (a⁻¹ * b)) lin_tol :=
    fun hc => absurd (hc i) (not_le.mpr hi)
  simp only [are_close]
  rw [if_neg hnc]

/-- Witness for the amended C1. -/
theorem are_close_false_of_trans_far_witness :
    (∃ i : Fin 3, (1 : ℝ) < |transOf ((1 : Mat4)⁻¹ * cFar) i|) ∧
      are_close 1 cFar 1 1 = some false := by
  have h : ∃ i : Fin 3, (1 : ℝ) < |transOf ((1 : Mat4)⁻¹ * cFar) i| := by
    have hone : (1 : Mat4)⁻¹ = 1 := Matrix.inv_eq_right_inv (one_mul 1)
    refine ⟨0, ?_⟩
    have h2 : transOf ((1 : Mat4)⁻¹ * cFar) 0 = 2 := by
      rw [hone, one_mul]
      norm_num [transOf, cFar, Matrix.vecHead, Matrix.vecTail]
    rw [h2, abs_of_nonneg (by norm_num : (0 : ℝ) ≤ 2)]
    norm_num
  exact ⟨h, are_close_false_of_trans_far _ _ _ _ h⟩

theorem cT1_mul_cT1i : cT1 * cT1i = 1 := by
  ext i j
  fin_cases i <;> fin_cases j <;>
    norm_num +decide [cT1, cT1i, Matrix.mul_apply, Fin.sum_univ_four,
      Matrix.one_apply, Matrix.vecHead, Matrix.vecTail]

theorem cT1_inv : cT1⁻¹ = cT1i := Matrix.inv_eq_right_inv cT1_mul_cT1i

theorem cd_eq : cT1⁻¹ * cT2 =
    !![1, 0, 0, 18/25; 0, 1, 0, -24/25; 0, 0, 1, 0; 0, 0, 0, 1] := by
  rw [cT1_inv]
  ext i j
  fin_cases i <;> fin_cases j <;>
    norm_num +decide [cT1i, cT2, Matrix.mul_apply, Fin.sum_univ_four,
      Matrix.vecHead, Matrix.vecTail]

/-- Counterexample to claim C1 as stated: `cT1` and `cT2` are rigid transforms
with identical rotation blocks whose translations differ by 6/5 > 1 = lin_tol
along the x axis, yet `are_close` returns `true`, because the code compares
the rotated difference `inv(cT1) @ cT2` componentwise and the rotation spreads
the offending component below the tolerance. -/
theorem are_close_trans_claim_counterexample :
    rotOf cT1 = rotOf cT2 ∧ (1 : ℝ) < |cT2 0 3 - cT1 0 3| ∧
      are_close cT1 cT2 1 1 = some true := by
  refine ⟨?_, ?_, ?_⟩
  · ext i j
    fin_cases i <;> fin_cases j <;>
      norm_num +decide [rotOf, cT1, cT2, Matrix.vecHead, Matrix.vecTail]
  · have h2 : cT2 0 3 - cT1 0 3 = 6 / 5 := by
      norm_num [cT1, cT2, Matrix.vecHead, Matrix.vecTail]
    rw [h2, abs_of_nonneg (by norm_num : (0 : ℝ) ≤ 6 / 5)]
    norm_num
  · have htr : npAllcloseZero
        (transOf (!![1, 0, 0, 18/25; 0, 1, 0, -24/25; 0, 0, 1, 0; 0, 0, 0, 1]))
        1 := by
      intro i
      fin_cases i <;>
        norm_num [transOf, abs_le, Matrix.vecHead, Matrix.vecTail]
    have hdom : asinDom
        (-(!![1, 0, 0, 18/25; 0, 1, 0, -24/25; 0, 0, 1, 0; 0, 0, 0, 1] :
          Mat4) 2 0) := by
      norm_num [asinDom, Matrix.vecHead, Matrix.vecTail]
    simp only [are_close, cd_eq]
    rw [if_pos htr, if_pos hdom]
    have hang : npAllcloseZero
        ![atan2 ((!![1, 0, 0, 18/25; 0, 1, 0, -24/25; 0, 0, 1, 0; 0, 0, 0, 1] :
            Mat4) 2 1)
            ((!![1, 0, 0, 18/25; 0, 1, 0, -24/25; 0, 0, 1, 0; 0, 0, 0, 1] :
            Mat4) 2 2),
          Real.arcsin
            (-(!![1, 0, 0, 18/25; 0, 1, 0, -24/25; 0, 0, 1, 0; 0, 0, 0, 1] :
            Mat4) 2 0),
          atan2 ((!![1, 0, 0, 18/25; 0, 1, 0, -24/25; 0, 0, 1, 0; 0, 0, 0, 1] :
            Mat4) 1 0)
            ((!![1, 0, 0, 18/25; 0, 1, 0, -24/25; 0, 0, 1, 0; 0, 0, 0, 1] :
            Mat4) 0 0)] 1 := by
      intro i
      fin_cases i <;>
        norm_num [atan2_zero_one, Real.arcsin_zero, abs_le,
          Matrix.vecHead, Matrix.vecTail]
    simp only [Option.some.injEq, decide_eq_true_eq]
    exact hang

/-- Claim C4: the pitch extraction passes `-d[2, 0]` to `asin` without
clamping; at the concrete invertible input `cAsin` (with `b` the default
identity and the default tolerances 1e-9) the argument is -2 and `are_close`
raises a domain fault (modelled by `none`) instead of returning a bool. -/
theorem are_close_asin_domain_fault :
    are_close cAsin 1 (1 / 1000000000) (1 / 1000000000) = none := by
  have hmul : cAsin * cAsinI = 1 := by
    ext i j
    fin_cases i <;> fin_cases j <;>
      norm_num +decide [cAsin, cAsinI, Matrix.mul_apply, Fin.sum_univ_four,
        Matrix.one_apply, Matrix.vecHead, Matrix.vecTail]
  have hinv : cAsin⁻¹ = cAsinI := Matrix.inv_eq_right_inv hmul
  have hd : cAsin⁻¹ * 1 = cAsinI := by rw [hinv, mul_one]
  have htr : npAllcloseZero (transOf cAsinI) (1 / 1000000000) := by
    intro i
    fin_cases i <;>
      norm_num [transOf, cAsinI, abs_le, Matrix.vecHead, Matrix.vecTail]
  have hdom : ¬ asinDom (-(cAsinI 2 0)) := by
    intro hcontra
    rcases hcontra with ⟨hle, _⟩
    norm_num [cAsinI, Matrix.vecHead, Matrix.vecTail] at hle
  simp only [are_close, hd]
  rw [if_pos htr, if_neg hdom]

/-- Claim C10: `are_close` depends only on the relative transform: composing
both arguments with an invertible transform `C` on the left leaves its result
unchanged, since `inv(C @ A) @ (C @ B) = inv(A) @ B` exactly. -/
theorem are_close_left_mult_invariant (C A B : Mat4) (lin_tol ang_tol : ℝ)
    (hA : IsUnit A.det) (hC : IsUnit C.det) :
    are_close (C * A) (C * B) lin_tol ang_tol = are_close A B lin_tol ang_tol := by
  have key : (C * A)⁻¹ * (C * B) = A⁻¹ * B := by
    rw [Matrix.mul_inv_rev, mul_assoc, ← mul_assoc C⁻¹ C B,
      Matrix.nonsing_inv_mul C hC, one_mul]
  simp only [are_close, key]

/-- Witness for C10 at concrete invertible inputs. -/
theorem are_close_left_mult_invariant_witness :
    IsUnit (1 : Mat4).det ∧
      are_close ((1 : Mat4) * 1) ((1 : Mat4) * 1) 1 1 = are_close 1 1 1 1 :=
  ⟨by simp, are_close_left_mult_invariant 1 1 1 1 1 (by simp) (by simp)⟩

theorem mat2euler_sxyz_one_pitch : (mat2euler_sxyz (1 : Mat3)).2.1 = 0 := by
  have e00 : (1 : Mat3) 0 0 = 1 := Matrix.one_apply_eq 0
  have e10 : (1 : Mat3) 1 0 = 0 := Matrix.one_apply_ne (by decide)
  have e20 : (1 : Mat3) 2 0 = 0 := Matrix.one_apply_ne (by decide)
  have hcy : Real.sqrt ((1 : Mat3) 0 0 * (1 : Mat3) 0 0 +
      (1 : Mat3) 1 0 * (1 : Mat3) 1 0) = 1 := by
    rw [e00, e10]
    norm_num
  rw [mat2euler_sxyz, if_pos (by rw [hcy]; norm_num)]
  simp only [hcy, e20, neg_zero]
  exact atan2_zero_one

/-- Claim C5: when the phone is rigidly attached to the arm (so the current
phone orientation is the arm's motion applied to the calibration pair), the
wrist delta pitch returned by `compute_wrist_deltas_from_phone_and_arm` is
exactly 0, for any orthonormal calibration matrices and any orthonormal
current arm rotation. -/
theorem wrist_pitch_isolation (phone arm phone0 arm0 : Mat3)
    (harm : arm.transpose * arm = 1)
    (harm0 : arm0.transpose * arm0 = 1)
    (hphone0 : phone0.transpose * phone0 = 1)
    (hrigid : phone = arm * arm0.transpose * phone0) :
    (compute_wrist_deltas_from_phone_and_arm phone arm phone0 arm0).1 = 0 := by
  have hw : arm.transpose * phone = arm0.transpose * phone0 := by
    rw [hrigid, ← mul_assoc, ← mul_assoc, harm, one_mul]
  have harm0r : arm0 * arm0.transpose = 1 := Matrix.mul_eq_one_comm.mp harm0
  have hdw : (arm0.transpose * phone0).transpose * (arm.transpose * phone) = 1 := by
    rw [hw, Matrix.transpose_mul, Matrix.transpose_transpose,
      mul_assoc, ← mul_assoc arm0 arm0.transpose phone0, harm0r, one_mul,
      hphone0]
  rw [compute_wrist_deltas_from_phone_and_arm]
  simp only [hdw]
  exact mat2euler_sxyz_one_pitch

theorem Rz_orth (t : ℝ) : (Rz t).transpose * Rz t = 1 := by
  ext i j
  fin_cases i <;> fin_cases j <;>
    simp [Rz, Matrix.mul_apply, Fin.sum_univ_three, Matrix.transpose_apply,
      Matrix.one_apply, Matrix.vecHead, Matrix.vecTail] <;>
    nlinarith [Real.sin_sq_add_cos_sq t]

/-- Witness for C5: the arm yaws 30 degrees about its local z axis and the
phone follows rigidly; the pitch delta is 0. -/
theorem wrist_pitch_isolation_witness :
    (Rz (Real.pi / 6)).transpose * Rz (Real.pi / 6) = 1 ∧
      ((1 : Mat3).transpose * 1 = 1) ∧
      (Rz (Real.pi / 6) * (1 : Mat3).transpose * 1 =
        Rz (Real.pi / 6) * (1 : Mat3).transpose * 1) ∧
      (compute_wrist_deltas_from_phone_and_arm
        (Rz (Real.pi / 6) * (1 : Mat3).transpose * 1) (Rz (Real.pi / 6))
        1 1).1 = 0 :=
  ⟨Rz_orth (Real.pi / 6), by simp, rfl,
    wrist_pitch_isolation _ _ _ _ (Rz_orth (Real.pi / 6)) (by simp) (by simp)
      rfl⟩

/-- Claim C6: `interpolate_transforms` fails its leading assertions (modelled
by `none`) exactly when alpha lies outside [0, 1] or either input is not
shaped 4x4, and runs past them otherwise. -/
theorem interpolate_transforms_checked_none_iff (m2q : Mat3 → Quat)
    (q2m : Quat → Mat3) (r1 c1 r2 c2 : ℕ) (T1 : Matrix (Fin r1) (Fin c1) ℝ)
    (T2 : Matrix (Fin r2) (Fin c2) ℝ) (alpha : ℝ) :
    interpolate_transforms_checked m2q q2m r1 c1 r2 c2 T1 T2 alpha = none ↔
      ¬ (((r1 = 4 ∧ c1 = 4) ∧ (r2 = 4 ∧ c2 = 4)) ∧ 0 ≤ alpha ∧ alpha ≤ 1) := by
  by_cases h : ((r1 = 4 ∧ c1 = 4) ∧ (r2 = 4 ∧ c2 = 4)) ∧ 0 ≤ alpha ∧ alpha ≤ 1
  · rw [interpolate_transforms_checked, dif_pos h]
    simp [h]
  · rw [interpolate_transforms_checked, dif_neg h]
    simp [h]

theorem rotOf_one : rotOf (1 : Mat4) = 1 := by
  ext i j
  fin_cases i <;> fin_cases j <;>
    norm_num +decide [rotOf, Matrix.one_apply, Matrix.vecHead, Matrix.vecTail]

/-- Claim C7: interpolating a valid rigid transform with itself returns it
exactly, for any alpha in [0, 1]: the translation interpolation is the
identity and the rotation survives the mat2quat / slerp(q, q, alpha) /
quat2mat round trip, assuming the documented contract of the external
conversions (unit quaternion output, matrix round trip) at T's rotation
block. -/
theorem interpolate_transforms_self (m2q : Mat3 → Quat) (q2m : Quat → Mat3)
    (T : Mat4) (alpha : ℝ) (h0 : 0 ≤ alpha) (h1 : alpha ≤ 1)
    (hrow : ∀ j, T 3 j = (1 : Mat4) 3 j)
    (hunit : qnorm (m2q (rotOf T)) = 1)
    (hround : q2m (m2q (rotOf T)) = rotOf T) :
    interpolate_transforms m2q q2m T T alpha = T := by
  rw [interpolate_transforms, slerp_self _ hunit, hround]
  have ht : (fun i => (1 - alpha) * transOf T i + alpha * transOf T i) =
      transOf T := by
    funext i
    ring
  rw [ht]
  have h30 := hrow 0
  have h31 := hrow 1
  have h32 := hrow 2
  have h33 := hrow 3
  rw [Matrix.one_apply_ne (by decide)] at h30
  rw [Matrix.one_apply_ne (by decide)] at h31
  rw [Matrix.one_apply_ne (by decide)] at h32
  rw [Matrix.one_apply_eq] at h33
  ext i j
  fin_cases i <;> fin_cases j <;>
    simp [assemble, rotOf, transOf, Matrix.vecHead, Matrix.vecTail] <;>
    simp [h30, h31, h32, h33]

/-- Witness for C7 at the identity transform with contract-satisfying
stand-ins for the external conversions. -/
theorem interpolate_transforms_self_witness :
    (0 : ℝ) ≤ 1 / 2 ∧ (1 / 2 : ℝ) ≤ 1 ∧
      (∀ j, (1 : Mat4) 3 j = (1 : Mat4) 3 j) ∧
      qnorm (cm2q (rotOf 1)) = 1 ∧ cq2m (cm2q (rotOf 1)) = rotOf 1 ∧
      interpolate_transforms cm2q cq2m 1 1 (1 / 2) = 1 :=
  ⟨by norm_num, by norm_num, fun j => rfl, qnorm_e0, rotOf_one.symm,
    interpolate_transforms_self cm2q cq2m 1 (1 / 2) (by norm_num) (by norm_num)
      (fun j => rfl) qnorm_e0 rotOf_one.symm⟩

/-- Claim C9: the two quaternion-reorder constants are exact mutual inverses
and realize the advertised component permutations: both products equal the
identity, and applying `TF_XYZW_TO_WXYZ` to any scalar-last 4-vector
`(x, y, z, w)` yields the scalar-first vector `(w, x, y, z)`. -/
theorem quat_reorder_constants_correct :
    TF_XYZW_TO_WXYZ * TF_WXYZ_TO_XYZW = 1 ∧
      TF_WXYZ_TO_XYZW * TF_XYZW_TO_WXYZ = 1 ∧
      ∀ x y z w : ℝ,
        TF_XYZW_TO_WXYZ.mulVec ![x, y, z, w] = ![w, x, y, z] := by
  refine ⟨?_, ?_, ?_⟩
  · ext i j
    fin_cases i <;> fin_cases j <;>
      norm_num +decide [TF_XYZW_TO_WXYZ, TF_WXYZ_TO_XYZW, Matrix.mul_apply,
        Fin.sum_univ_four, Matrix.one_apply, Matrix.vecHead, Matrix.vecTail]
  · ext i j
    fin_cases i <;> fin_cases j <;>
      norm_num +decide [TF_XYZW_TO_WXYZ, TF_WXYZ_TO_XYZW, Matrix.mul_apply,
        Fin.sum_univ_four, Matrix.one_apply, Matrix.vecHead, Matrix.vecTail]
  · intro x y z w
    funext i
    fin_cases i <;>
      norm_num [TF_XYZW_TO_WXYZ, Matrix.mulVec, Matrix.dotProduct,
        Fin.sum_univ_four, Matrix.vecHead, Matrix.vecTail]

end

end TeleopAndroid
